import Mathlib

/-!
Verification of the confound-loading engine of `load_confounds`
(`load_confounds/parser.py`), against its natural-language specification.

The embedding below is a shallow model of the Python module:

* a pandas `DataFrame` becomes `DF`, a list of named columns whose cells are
  either a rational value or `nan` (floats are modelled by `ℚ`, `NaN` by an
  explicit constructor);
* the JSON sidecar becomes an association list from column name to the
  `Mask` attribute (the only attribute the code reads);
* functions that can raise (`ValueError`, `KeyError`, `NameError`,
  `IndexError`) return `Except String`, with the raised message as the error;
* `sklearn.preprocessing.scale` and `sklearn.decomposition.PCA.fit_transform`
  are external collaborators: they are passed in as function parameters
  (`scaleFn`, `pcaFn`), and theorems that need their documented behaviour
  (PCA returns exactly `n_components` columns) take it as a hypothesis;
* file-system access (`_confounds_to_df`) is outside the modelled scope, as
  the spec declares: the engine is handed an in-memory table plus sidecar.
-/

/-- A table cell: a numeric value or NaN (missing). Floats modelled by `ℚ`. -/
inductive Cell where
  | nan : Cell
  | val (q : ℚ) : Cell
deriving DecidableEq

/-- Is the cell NaN? -/
def Cell.isNan : Cell → Bool
  | .nan => true
  | .val _ => false

/-- Elementwise `series > thresh`; NaN compares as False, as in numpy. -/
def cellGt (c : Cell) (t : ℚ) : Bool :=
  match c with
  | .nan => false
  | .val q => decide (t < q)

/-- A pandas DataFrame: ordered, named columns of cells. -/
structure DF where
  cols : List (String × List Cell)
deriving DecidableEq

/-- Column labels, in order (`df.columns`). -/
def DF.columns (df : DF) : List String := df.cols.map Prod.fst

/-- Number of columns. -/
def DF.ncols (df : DF) : ℕ := df.cols.length

/-- Number of rows (`len(df)`); a wellformed frame has equal column lengths. -/
def DF.nrows (df : DF) : ℕ :=
  match df.cols with
  | [] => 0
  | c :: _ => c.2.length

/-- `pd.concat([a, b], axis=1)` for same-index frames: append columns. -/
def concatDF (a b : DF) : DF := ⟨a.cols ++ b.cols⟩

/-- Column-concatenation of a list of frames, in order. -/
def concatAll (L : List DF) : DF := ⟨(L.map DF.cols).flatten⟩

/-- `df[name]`: first column with that label, `KeyError` if absent. -/
def DF.getCol (df : DF) (name : String) : Except String (List Cell) :=
  match df.cols.find? (fun c => c.1 == name) with
  | some c => .ok c.2
  | none => .error ("KeyError: " ++ name)

/-- `df[names]`: the named columns, in the order requested; `KeyError` on a
missing name. -/
def DF.select (df : DF) (names : List String) : Except String DF :=
  (names.mapM (fun nm =>
    match df.cols.find? (fun c : String × List Cell => c.1 == nm) with
    | some c => (Except.ok c : Except String (String × List Cell))
    | none => Except.error ("KeyError: " ++ nm))).map (fun cs => (⟨cs⟩ : DF))

/-- Python substring test on char lists (`needle in hay`). -/
def charsContains (needle : List Char) : List Char → Bool
  | [] => needle.isEmpty
  | c :: rest => needle.isPrefixOf (c :: rest) || charsContains needle rest

/-- Python `needle in hay` on strings. -/
def strContains (hay needle : String) : Bool :=
  charsContains needle.toList hay.toList

/-- `str(n).zfill(2)`. -/
def zfill2 (n : ℕ) : String :=
  let s := Nat.repr n
  if s.length < 2 then "0" ++ s else s

/-- The module-level list of admissible noise-component categories. -/
def all_confounds : List String :=
  ["motion", "high_pass", "wm_csf", "global", "compcor", "ica_aroma", "censoring"]

/-- The suffix set for each sub-model in `_add_suffix`; an unknown model is a
`KeyError` on the Python dict. -/
def suffix_sets (model : String) : Except String (List String) :=
  if model = "basic" then .ok []
  else if model = "derivatives" then .ok ["derivative1"]
  else if model = "power2" then .ok ["power2"]
  else if model = "full" then .ok ["derivative1", "power2", "derivative1_power2"]
  else .error ("KeyError: " ++ model)

/-- `_add_suffix`: base parameters first, then, per base parameter, its
suffixed variants. -/
def add_suffix (params : List String) (model : String) : Except String (List String) :=
  (suffix_sets model).map fun suffs =>
    params ++ (params.map (fun par => suffs.map (fun s => par ++ "_" ++ s))).flatten

/-- `_check_params`: raise `ValueError` at the first requested parameter that
is not a column of the table. -/
def check_params (df : DF) (params : List String) : Except String Unit :=
  match params with
  | [] => .ok ()
  | par :: rest =>
    if par ∈ df.columns then check_params df rest
    else .error ("The parameter " ++ par ++
      " cannot be found in the available confounds. You may want to use a different denoising strategy")

/-- `_find_confounds`: for each keyword, in order, collect every column whose
name contains it; raise `ValueError` at the first keyword with no match. -/
def find_confounds (df : DF) (keywords : List String) : Except String (List String) :=
  match keywords with
  | [] => .ok []
  | key :: rest =>
    let found := df.columns.filter (fun col => strContains col key)
    if found.isEmpty then .error ("could not find any confound with the key " ++ key)
    else (find_confounds df rest).map (fun more => found ++ more)

/-- `_load_global`. -/
def load_global (df : DF) (global_signal : String) : Except String DF := do
  let global_params ← add_suffix ["global_signal"] global_signal
  let _ ← check_params df global_params
  df.select global_params

/-- `_load_wm_csf`. -/
def load_wm_csf (df : DF) (wm_csf : String) : Except String DF := do
  let wm_csf_params ← add_suffix ["csf", "white_matter"] wm_csf
  let _ ← check_params df wm_csf_params
  df.select wm_csf_params

/-- `_load_high_pass`. -/
def load_high_pass (df : DF) : Except String DF := do
  let high_pass_params ← find_confounds df ["cosine"]
  df.select high_pass_params

/-- `_load_ica_aroma`. -/
def load_ica_aroma (df : DF) : Except String DF := do
  let ica_aroma_params ← find_confounds df ["aroma"]
  df.select ica_aroma_params

/-- `n_compcor`: the sentinel `"auto"` or an integer count. -/
inductive NComp where
  | auto : NComp
  | num (n : ℕ) : NComp
deriving DecidableEq

/-- The Python value passed as `compcor_mask`: a mask-label string on the
anatomical paths, or the `acompcor_combined` boolean leaked through on the
`"temp"`/`"full"` paths. -/
inductive MaskArg where
  | s (v : String) : MaskArg
  | b (v : Bool) : MaskArg
deriving DecidableEq

/-- Python `==` between the sidecar's `Mask` string and the mask argument:
a string never equals a boolean. -/
def maskMatches (field : String) : MaskArg → Bool
  | .s v => field == v
  | .b _ => false

/-- `_select_compcor`. When truncation is required the Python body reads the
undefined name `compcor_col` (a typo for `compcor_cols`), so that branch
raises `NameError` instead of slicing. -/
def select_compcor (compcor_cols : List String) (n_compcor : NComp) (_compcor_mask : MaskArg) :
    Except String (List String) :=
  match n_compcor with
  | .auto => .ok compcor_cols
  | .num k =>
    if k < compcor_cols.length then .error "NameError: name compcor_col is not defined"
    else .ok compcor_cols

/-- One iteration of the `_label_compcor` enumeration loop: the candidate
column for index `nn`, kept when the prefix is `"t"`, or when the prefix is
`"a"` and the sidecar's `Mask` equals the mask argument (a `KeyError` if the
candidate name is not a sidecar key; the `or` short-circuits for `"t"`). -/
def compcor_step (json : List (String × String)) (pfx : String) (mask : MaskArg) (nn : ℕ) :
    Except String (List String) :=
  let compcor_col := pfx ++ "_comp_cor_" ++ zfill2 nn
  if pfx = "t" then .ok [compcor_col]
  else if pfx = "a" then
    match json.lookup compcor_col with
    | none => .error ("KeyError: " ++ compcor_col)
    | some m => .ok (if maskMatches m mask then [compcor_col] else [])
  else .ok []

/-- `_label_compcor`: count the sidecar keys containing `<pfx>_comp_cor`,
loop over that range collecting the retained columns, then truncate. -/
def label_compcor (json : List (String × String)) (pfx : String) (n_compcor : NComp)
    (mask : MaskArg) : Except String (List String) := do
  let total := ((json.map Prod.fst).filter (fun k => strContains k (pfx ++ "_comp_cor"))).length
  let parts ← (List.range total).mapM (compcor_step json pfx mask)
  select_compcor parts.flatten n_compcor mask

/-- `_load_acompcor`. -/
def load_acompcor (json : List (String × String)) (n_compcor : NComp)
    (acompcor_combined : Bool) : Except String (List String) :=
  if acompcor_combined then label_compcor json "a" n_compcor (.s "combined")
  else do
    let wm ← label_compcor json "a" n_compcor (.s "WM")
    let csf ← label_compcor json "a" n_compcor (.s "CSF")
    pure (wm ++ csf)

/-- `_load_compcor`; an unrecognised `compcor` leaves `compcor_cols` unbound,
a `NameError` at the `_check_params` call. On the `"temp"`/`"full"` paths the
boolean `acompcor_combined` is passed through as the mask argument. -/
def load_compcor (df : DF) (json : List (String × String)) (compcor : String)
    (n_compcor : NComp) (acompcor_combined : Bool) : Except String DF := do
  let compcor_cols ←
    if compcor = "anat" then load_acompcor json n_compcor acompcor_combined
    else if compcor = "temp" then label_compcor json "t" n_compcor (.b acompcor_combined)
    else if compcor = "full" then do
      let a ← label_compcor json "a" n_compcor (.b acompcor_combined)
      let t ← label_compcor json "t" n_compcor (.b acompcor_combined)
      pure (a ++ t)
    else .error "NameError: name compcor_cols is not defined"
  let _ ← check_params df compcor_cols
  df.select compcor_cols

/-- A numeric matrix, stored column-major (list of columns). -/
abbrev Mat := List (List Cell)

/-- `df.dropna()`: keep the rows where no column is NaN. -/
def dropna (df : DF) : DF :=
  let keep := (List.range df.nrows).filter
    (fun r => df.cols.all (fun c => !(c.2.getD r Cell.nan).isNan))
  ⟨df.cols.map (fun c => (c.1, keep.map (fun r => c.2.getD r Cell.nan)))⟩

/-- `_pca_motion`. `scaleFn` models `sklearn.preprocessing.scale` and `pcaFn`
models `PCA(n_components).fit_transform` (column-major); the availability
check precedes both, so an over-request raises before any output exists. The
output columns are relabelled `motion_pca_<i+1>` in column order. -/
def pca_motion (scaleFn : Mat → Mat) (pcaFn : ℕ → Mat → Mat) (confounds_motion : DF)
    (n_components : ℕ) : Except String DF :=
  let n_available := confounds_motion.ncols
  if n_components > n_available then
    .error ("User requested n_motion=" ++ Nat.repr n_components ++
      " motion components, but found only " ++ Nat.repr n_available ++ ".")
  else
    let dropped := dropna confounds_motion
    let x := scaleFn (dropped.cols.map Prod.snd)
    let y := pcaFn n_components x
    .ok ⟨y.enum.map (fun p => ("motion_pca_" ++ Nat.repr (p.1 + 1), p.2))⟩

/-- `_load_motion`. -/
def load_motion (scaleFn : Mat → Mat) (pcaFn : ℕ → Mat → Mat) (df : DF) (motion : String)
    (n_motion : ℕ) : Except String DF := do
  let motion_params ← add_suffix ["trans_x", "trans_y", "trans_z", "rot_x", "rot_y", "rot_z"] motion
  let _ ← check_params df motion_params
  let confounds_motion ← df.select motion_params
  if n_motion > 0 then pca_motion scaleFn pcaFn confounds_motion n_motion
  else pure confounds_motion

/-- `np.sort(np.unique(x))`: the sorted list of distinct values. -/
def sortUnique (l : List ℕ) : List ℕ := (l.insertionSort (· ≤ ·)).dedup

/-- The list of adjacent pairs of a list (`zip(l, l[1:])`); `np.diff` is the
per-pair difference of these. -/
def adjPairs (l : List ℕ) : List (ℕ × ℕ) := l.zip l.tail

/-- `range(a + 1, b)`: the indices strictly between two outliers. -/
def gapFill (a b : ℕ) : List ℕ := List.range' (a + 1) (b - (a + 1))

/-- The two boundary steps of `_optimize_censoring`: if the leading clean
segment is shorter than 5, prepend `range(fd[0])`; if the trailing clean
segment is shorter than 5, append `range(fd[-1], n_scans)`. -/
def boundaryFill (fd_outliers : List ℕ) (n_scans : ℕ) : List ℕ :=
  match fd_outliers with
  | [] => []
  | f0 :: _ =>
    let fd1 := if f0 < 5 then List.range f0 ++ fd_outliers else fd_outliers
    let lastV := fd1.getLastD 0
    if n_scans - (lastV + 1) < 5 then fd1 ++ List.range' lastV (n_scans - lastV) else fd1

/-- The interior step of `_optimize_censoring`: for every adjacent pair whose
difference is strictly between 1 and 6, append the indices inside the gap.
(The Python loop appends to the array it indexes, but only at the end, so the
positions it reads are those of the adjacent pairs of the post-boundary
array.) -/
def interiorFills (fd2 : List ℕ) : List ℕ :=
  ((adjPairs fd2).map (fun p =>
    if 1 < (p.2 : ℤ) - (p.1 : ℤ) ∧ (p.2 : ℤ) - (p.1 : ℤ) < 6 then gapFill p.1 p.2
    else [])).flatten

/-- `_optimize_censoring`: boundary fill, interior gap fill, then
`np.sort(np.unique(...))`. On an empty outlier array the first statement
reads `fd_outliers[0]`, an `IndexError`, modelled as `none`. -/
def optimize_censoring (fd_outliers : List ℕ) (n_scans : ℕ) : Option (List ℕ) :=
  match fd_outliers with
  | [] => none
  | _ :: _ =>
    let fd2 := boundaryFill fd_outliers n_scans
    some (sortUnique (fd2 ++ interiorFills fd2))

/-- `np.where(series > thresh)[0]`: row indices exceeding the threshold. -/
def outlier_indices (col : List Cell) (thresh : ℚ) : List ℕ :=
  (col.enum.filter (fun p => cellGt p.2 thresh)).map Prod.fst

/-- `_load_censoring`: combine framewise-displacement and DVARS outliers,
optionally run the optimized pass, then build one-hot indicator columns
`motion_outlier_<j>`, one per retained outlier index, in index order. -/
def load_censoring (df : DF) (censoring : String) (fd_thresh std_dvars_thresh : ℚ) :
    Except String DF := do
  let n_scans := df.nrows
  let fd_col ← df.getCol "framewise_displacement"
  let dvars_col ← df.getCol "std_dvars"
  let fd_outliers := outlier_indices fd_col fd_thresh
  let dvars_outliers := outlier_indices dvars_col std_dvars_thresh
  let combined := sortUnique (fd_outliers ++ dvars_outliers)
  let combined2 ←
    if censoring = "optimized" then
      match optimize_censoring combined n_scans with
      | none => .error "IndexError: index 0 is out of bounds for axis 0 with size 0"
      | some o => .ok o
    else .ok combined
  let regressors := combined2.map
    (fun k => (List.range n_scans).map (fun r => if r = k then Cell.val 1 else Cell.val 0))
  .ok ⟨regressors.enum.map (fun p => ("motion_outlier_" ++ Nat.repr p.1, p.2))⟩

/-- The dynamic type of the `strategy` argument: a Python list, a Python set,
or some other value (e.g. a bare string). -/
inductive StrategyInput where
  | pylist (l : List String) : StrategyInput
  | pyset (l : List String) : StrategyInput
  | pystr (s : String) : StrategyInput
deriving DecidableEq

/-- The category-name check inside `_sanitize_strategy`: error at the first
entry outside `all_confounds`. -/
def check_strategy_list (l : List String) : Except String Unit :=
  match l with
  | [] => .ok ()
  | conf :: rest =>
    if conf ∈ all_confounds then check_strategy_list rest
    else .error (conf ++ " is not a supported type of confounds.")

/-- `_sanitize_strategy`: only a Python list passes the `isinstance` test;
its entries must all be admissible category names. The list itself (order,
duplicates, emptiness included) is returned unchanged. -/
def sanitize_strategy (strategy : StrategyInput) : Except String (List String) :=
  match strategy with
  | .pylist l => (check_strategy_list l).map (fun _ => l)
  | _ => .error "strategy needs to be a list of strings"

/-- The configuration record held by a constructed `Confounds` object. -/
structure Confounds where
  strategy : List String
  motion : String
  n_motion : ℕ
  censoring : String
  fd_thresh : ℚ
  std_dvars_thresh : ℚ
  wm_csf : String
  global_signal : String
  compcor : String
  acompcor_combined : Bool
  n_compcor : NComp
  demean : Bool
deriving DecidableEq

/-- Replace the strategy of a configuration (used to compare strategies). -/
def withStrategy (c : Confounds) (s : List String) : Confounds :=
  ⟨s, c.motion, c.n_motion, c.censoring, c.fd_thresh, c.std_dvars_thresh, c.wm_csf,
    c.global_signal, c.compcor, c.acompcor_combined, c.n_compcor, c.demean⟩

/-- `Confounds.__init__`: sanitize the strategy, store the configuration. -/
def mk_confounds (strategy : StrategyInput) (motion : String) (n_motion : ℕ)
    (censoring : String) (fd_thresh std_dvars_thresh : ℚ) (wm_csf global_signal compcor : String)
    (acompcor_combined : Bool) (n_compcor : NComp) (demean : Bool) : Except String Confounds :=
  (sanitize_strategy strategy).map
    (fun s => ⟨s, motion, n_motion, censoring, fd_thresh, std_dvars_thresh, wm_csf,
      global_signal, compcor, acompcor_combined, n_compcor, demean⟩)

/-- One in-memory input table: the confounds table plus its JSON sidecar
(file-name resolution and parsing are outside the modelled scope). -/
abbrev Table := DF × List (String × String)

/-- The dynamic shape of the `load` argument: one table or a list of tables. -/
inductive RawConfounds where
  | single (t : Table) : RawConfounds
  | listOf (ts : List Table) : RawConfounds

/-- `_sanitize_confounds`: wrap a single input in a one-element list and
remember the flag. -/
def sanitize_confounds (raw : RawConfounds) : List Table × Bool :=
  match raw with
  | .single t => ([t], true)
  | .listOf ts => (ts, false)

/-- `_confounds_to_ndarray` on one column: a NaN in the first row is replaced
by the second row's value. -/
def backfill_col (col : List Cell) : List Cell :=
  match col with
  | [] => []
  | c0 :: rest => (if c0.isNan then rest.getD 0 Cell.nan else c0) :: rest

/-- The rational values of a column, if none is NaN. -/
def col_rats (col : List Cell) : Option (List ℚ) :=
  col.mapM (fun c => match c with | .nan => none | .val q => some q)

/-- Remove the column mean (`scale(..., with_std=False)` on one column). -/
def demean_col (col : List Cell) : List Cell :=
  match col_rats col with
  | some qs => qs.map (fun q => Cell.val (q - qs.sum / (qs.length : ℚ)))
  | none => col.map (fun _ => Cell.nan)

/-- `_confounds_to_ndarray`: take the labels, backfill the first row of each
column, then optionally demean. `sklearn.preprocessing.scale` rejects NaN
input (`check_array`), modelled as an error when demeaning meets a NaN that
survived the backfill. -/
def confounds_to_ndarray (confounds : DF) (demean : Bool) :
    Except String (Mat × List String) :=
  let labels := confounds.columns
  let filled := (confounds.cols.map Prod.snd).map backfill_col
  if demean then
    if filled.any (fun col => col.any Cell.isNan) then .error "Input contains NaN"
    else .ok (filled.map demean_col, labels)
  else .ok (filled, labels)

/-- `Confounds._load_single`: invoke, in the fixed textual order, each
category loader whose tag is a member of the strategy, concatenating blocks
column-wise into an initially empty frame, then convert to matrix + labels. -/
def load_single (scaleFn : Mat → Mat) (pcaFn : ℕ → Mat → Mat) (c : Confounds) (df : DF)
    (json : List (String × String)) : Except String (Mat × List String) := do
  let conf0 : DF := ⟨[]⟩
  let conf1 ←
    if "motion" ∈ c.strategy then
      (load_motion scaleFn pcaFn df c.motion c.n_motion).map (concatDF conf0)
    else pure conf0
  let conf2 ←
    if "censoring" ∈ c.strategy then
      (load_censoring df c.censoring c.fd_thresh c.std_dvars_thresh).map (concatDF conf1)
    else pure conf1
  let conf3 ←
    if "high_pass" ∈ c.strategy then (load_high_pass df).map (concatDF conf2)
    else pure conf2
  let conf4 ←
    if "wm_csf" ∈ c.strategy then (load_wm_csf df c.wm_csf).map (concatDF conf3)
    else pure conf3
  let conf5 ←
    if "global" ∈ c.strategy then (load_global df c.global_signal).map (concatDF conf4)
    else pure conf4
  let conf6 ←
    if "compcor" ∈ c.strategy then
      (load_compcor df json c.compcor c.n_compcor c.acompcor_combined).map (concatDF conf5)
    else pure conf5
  let conf7 ←
    if "ica_aroma" ∈ c.strategy then (load_ica_aroma df).map (concatDF conf6)
    else pure conf6
  confounds_to_ndarray conf7 c.demean

/-- The result surface of `Confounds.load`: the returned confounds and the
stored `columns_`, mirroring the input arity. -/
inductive LoadOut where
  | single (r : Mat × List String) : LoadOut
  | listOf (rs : List (Mat × List String)) : LoadOut

/-- The loop of `Confounds.load`: load each table in input order, appending
the per-table results (a failure aborts the whole batch, as the Python
exception would). -/
def load_list (scaleFn : Mat → Mat) (pcaFn : ℕ → Mat → Mat) (c : Confounds) :
    List Table → Except String (List (Mat × List String))
  | [] => .ok []
  | t :: ts => do
    let r ← load_single scaleFn pcaFn c t.1 t.2
    let rs ← load_list scaleFn pcaFn c ts
    pure (r :: rs)

/-- `Confounds.load`: sanitize the input shape, load each table in input
order, and unwrap the one-element list when a single input was provided. -/
def Confounds.load (scaleFn : Mat → Mat) (pcaFn : ℕ → Mat → Mat) (c : Confounds)
    (raw : RawConfounds) : Except String LoadOut := do
  let p := sanitize_confounds raw
  let results ← load_list scaleFn pcaFn c p.1
  if p.2 then
    match results with
    | r :: _ => pure (.single r)
    | [] => .error "IndexError: list index out of range"
  else pure (.listOf results)

/-! ### Helper lemmas: adjacent pairs and sorted deduplication -/

theorem adjPairs_cons_cons (a b : ℕ) (t : List ℕ) :
    adjPairs (a :: b :: t) = (a, b) :: adjPairs (b :: t) := rfl

theorem adjPairs_mem_cons {a : ℕ} {t : List ℕ} {p : ℕ × ℕ} (h : p ∈ adjPairs t) :
    p ∈ adjPairs (a :: t) := by
  cases t with
  | nil => simp [adjPairs] at h
  | cons b t2 => exact List.mem_cons_of_mem _ h

theorem adjPairs_append_left : ∀ {l1 : List ℕ} (l2 : List ℕ) {p : ℕ × ℕ},
    p ∈ adjPairs l1 → p ∈ adjPairs (l1 ++ l2)
  | [], _, _, h => by simp [adjPairs] at h
  | [a], _, _, h => by simp [adjPairs] at h
  | a :: b :: t, l2, p, h => by
    rw [adjPairs_cons_cons] at h
    rw [List.cons_append, List.cons_append, adjPairs_cons_cons]
    rcases List.mem_cons.mp h with h1 | h1
    · exact h1 ▸ List.mem_cons_self _ _
    · have := adjPairs_append_left l2 h1
      rw [List.cons_append] at this
      exact List.mem_cons_of_mem _ this

theorem adjPairs_append_right : ∀ (l1 : List ℕ) {l2 : List ℕ} {p : ℕ × ℕ},
    p ∈ adjPairs l2 → p ∈ adjPairs (l1 ++ l2)
  | [], _, _, h => h
  | a :: t, l2, p, h => by
    rw [List.cons_append]
    exact adjPairs_mem_cons (adjPairs_append_right t h)

theorem adjPairs_rel {R : ℕ → ℕ → Prop} : ∀ {l : List ℕ}, List.Chain' R l →
    ∀ {p : ℕ × ℕ}, p ∈ adjPairs l → R p.1 p.2
  | [], _, _, hp => by simp [adjPairs] at hp
  | [a], _, _, hp => by simp [adjPairs] at hp
  | a :: b :: t, hc, p, hp => by
    rw [adjPairs_cons_cons] at hp
    rcases List.mem_cons.mp hp with h | h
    · subst h; exact (List.chain'_cons.mp hc).1
    · exact adjPairs_rel (List.chain'_cons.mp hc).2 h

theorem adjPairs_mem : ∀ {l : List ℕ} {p : ℕ × ℕ}, p ∈ adjPairs l → p.1 ∈ l ∧ p.2 ∈ l
  | [], _, hp => by simp [adjPairs] at hp
  | [a], _, hp => by simp [adjPairs] at hp
  | a :: b :: t, p, hp => by
    rw [adjPairs_cons_cons] at hp
    rcases List.mem_cons.mp hp with h | h
    · subst h
      exact ⟨List.mem_cons_self _ _, List.mem_cons_of_mem _ (List.mem_cons_self _ _)⟩
    · have h2 := adjPairs_mem h
      exact ⟨List.mem_cons_of_mem _ h2.1, List.mem_cons_of_mem _ h2.2⟩

theorem adjPairs_no_between : ∀ {l : List ℕ}, List.Pairwise (· ≤ ·) l →
    ∀ {p : ℕ × ℕ}, p ∈ adjPairs l → ∀ {c : ℕ}, c ∈ l → ¬(p.1 < c ∧ c < p.2)
  | [], _, _, hp, _, _ => by simp [adjPairs] at hp
  | [a], _, _, hp, _, _ => by simp [adjPairs] at hp
  | a :: b :: t, hs, p, hp, c, hc => by
    rw [adjPairs_cons_cons] at hp
    have hs1 := List.pairwise_cons.mp hs
    rcases List.mem_cons.mp hp with h | h
    · subst h
      rcases List.mem_cons.mp hc with rfl | hc2
      · exact fun hh => lt_irrefl _ hh.1
      rcases List.mem_cons.mp hc2 with rfl | hc3
      · exact fun hh => lt_irrefl _ hh.2
      · have hbc : b ≤ c := (List.pairwise_cons.mp hs1.2).1 c hc3
        exact fun hh => absurd hh.2 (not_lt.mpr hbc)
    · rcases List.mem_cons.mp hc with rfl | hc2
      · have hp1 : p.1 ∈ b :: t := (adjPairs_mem h).1
        have hle : c ≤ p.1 := hs1.1 p.1 hp1
        exact fun hh => absurd hh.1 (not_lt.mpr hle)
      · exact adjPairs_no_between hs1.2 h hc2

theorem adjPairs_of_set_adjacent : ∀ {l : List ℕ}, List.Pairwise (· ≤ ·) l →
    ∀ {a b : ℕ}, a ∈ l → b ∈ l → a < b → (∀ c ∈ l, ¬(a < c ∧ c < b)) →
    (a, b) ∈ adjPairs l
  | [], _, a, b, ha, _, _, _ => by simp at ha
  | x :: t, hs, a, b, ha, hb, hab, hbet => by
    have hs1 := List.pairwise_cons.mp hs
    have hbt : b ∈ t := by
      rcases List.mem_cons.mp hb with rfl | h
      · rcases List.mem_cons.mp ha with rfl | h2
        · exact absurd hab (lt_irrefl _)
        · exact absurd hab (not_lt.mpr (hs1.1 a h2))
      · exact h
    rcases List.mem_cons.mp ha with rfl | hat
    · cases t with
      | nil => simp at hbt
      | cons y t2 =>
        by_cases hyb : y = b
        · subst hyb
          rw [adjPairs_cons_cons]
          exact List.mem_cons_self _ _
        · by_cases hay : a = y
          · have hrec : (a, b) ∈ adjPairs (y :: t2) :=
              adjPairs_of_set_adjacent hs1.2 (by simp [hay]) hbt hab
                (fun c hc => hbet c (List.mem_cons_of_mem _ hc))
            exact adjPairs_mem_cons hrec
          · have hy : a ≤ y := hs1.1 y (List.mem_cons_self _ _)
            have hay2 : a < y := lt_of_le_of_ne hy hay
            have hyb2 : y ≤ b := by
              rcases List.mem_cons.mp hbt with rfl | h2
              · exact le_refl _
              · exact (List.pairwise_cons.mp hs1.2).1 b h2
            have hnb : ¬(a < y ∧ y < b) := hbet y (List.mem_cons_of_mem _ (List.mem_cons_self _ _))
            have hyb3 : ¬ y < b := fun hlt => hnb ⟨hay2, hlt⟩
            exact absurd (le_antisymm hyb2 (not_lt.mp hyb3)) hyb
    · exact adjPairs_mem_cons
        (adjPairs_of_set_adjacent hs1.2 hat hbt hab
          (fun c hc => hbet c (List.mem_cons_of_mem _ hc)))

theorem mem_sortUnique {x : ℕ} {l : List ℕ} : x ∈ sortUnique l ↔ x ∈ l := by
  unfold sortUnique
  rw [List.mem_dedup]
  exact (List.perm_insertionSort _ l).mem_iff

theorem sortUnique_sorted (l : List ℕ) : List.Pairwise (· ≤ ·) (sortUnique l) :=
  List.Pairwise.sublist (List.dedup_sublist _) (List.sorted_insertionSort _ l)

theorem sortUnique_pairwise_lt (l : List ℕ) : List.Pairwise (· < ·) (sortUnique l) :=
  ((sortUnique_sorted l).and (List.nodup_dedup _)).imp
    (fun hab => lt_of_le_of_ne hab.1 hab.2)

/-! ### Helper lemmas: the boundary and interior fills of optimized censoring -/

theorem getLastD_append_cons : ∀ (l1 : List ℕ) (a : ℕ) (l2 : List ℕ) (d : ℕ),
    (l1 ++ a :: l2).getLastD d = (a :: l2).getLastD d
  | [], _, _, _ => rfl
  | x :: t, a, l2, d => by
    rw [List.cons_append, List.getLastD_cons, getLastD_append_cons t a l2 x,
      List.getLastD_cons, List.getLastD_cons]

theorem getLast?_mem_self : ∀ {l : List ℕ} {x : ℕ}, l.getLast? = some x → x ∈ l
  | [], x, h => by simp at h
  | [a], x, h => by
    simp only [List.getLast?_singleton, Option.some.injEq] at h
    simp [h]
  | a :: b :: t, x, h => by
    rw [List.getLast?_cons_cons] at h
    exact List.mem_cons_of_mem _ (getLast?_mem_self h)

theorem getLast?_cons_getLastD (a : ℕ) (l : List ℕ) :
    (a :: l).getLast? = some ((a :: l).getLastD 0) := by
  rw [List.getLastD_eq_getLast?]
  cases h : (a :: l).getLast? with
  | some y => rfl
  | none => exact absurd h (by simp)

theorem getLastD_cons_irrel (a d : ℕ) (l : List ℕ) :
    (a :: l).getLastD d = (a :: l).getLastD 0 := by
  rw [List.getLastD_cons, List.getLastD_cons]

theorem chain_lt_head_le {f0 : ℕ} {rest : List ℕ} (hc : List.Chain' (· < ·) (f0 :: rest)) :
    ∀ x ∈ f0 :: rest, f0 ≤ x := by
  intro x hx
  rcases List.mem_cons.mp hx with rfl | h
  · exact le_refl x
  · have hp : List.Pairwise (· < ·) (f0 :: rest) := List.chain'_iff_pairwise.mp hc
    exact le_of_lt ((List.pairwise_cons.mp hp).1 x h)

theorem chain_lt_le_getLastD : ∀ {l : List ℕ}, List.Chain' (· < ·) l →
    ∀ {x : ℕ}, x ∈ l → x ≤ l.getLastD 0
  | [], _, x, hx => by simp at hx
  | [a], _, x, hx => by
    rcases List.mem_cons.mp hx with rfl | h
    · exact le_refl _
    · simp at h
  | a :: b :: t, hc, x, hx => by
    have h2 := List.chain'_cons.mp hc
    rw [List.getLastD_cons, getLastD_cons_irrel]
    rcases List.mem_cons.mp hx with rfl | h
    · exact le_trans (le_of_lt h2.1) (chain_lt_le_getLastD h2.2 (List.mem_cons_self _ _))
    · exact chain_lt_le_getLastD h2.2 h

theorem boundaryFill_cons (f0 : ℕ) (rest : List ℕ) (n : ℕ) :
    boundaryFill (f0 :: rest) n =
      (if n - ((if f0 < 5 then List.range f0 ++ (f0 :: rest) else (f0 :: rest)).getLastD 0 + 1) < 5
       then (if f0 < 5 then List.range f0 ++ (f0 :: rest) else (f0 :: rest)) ++
            List.range' ((if f0 < 5 then List.range f0 ++ (f0 :: rest) else (f0 :: rest)).getLastD 0)
              (n - (if f0 < 5 then List.range f0 ++ (f0 :: rest) else (f0 :: rest)).getLastD 0)
       else (if f0 < 5 then List.range f0 ++ (f0 :: rest) else (f0 :: rest))) := rfl

theorem boundaryFill_eq (f0 : ℕ) (rest : List ℕ) (n : ℕ) :
    boundaryFill (f0 :: rest) n =
      (if f0 < 5 then List.range f0 else []) ++ ((f0 :: rest) ++
        (if n - ((f0 :: rest).getLastD 0 + 1) < 5 then
          List.range' ((f0 :: rest).getLastD 0) (n - (f0 :: rest).getLastD 0) else [])) := by
  rw [boundaryFill_cons]
  by_cases h1 : f0 < 5
  · rw [if_pos h1, if_pos h1]
    rw [getLastD_append_cons]
    by_cases h2 : n - ((f0 :: rest).getLastD 0 + 1) < 5
    · rw [if_pos h2, if_pos h2, List.append_assoc]
    · rw [if_neg h2, if_neg h2, List.append_nil]
  · rw [if_neg h1, if_neg h1]
    by_cases h2 : n - ((f0 :: rest).getLastD 0 + 1) < 5
    · rw [if_pos h2, if_pos h2, List.nil_append]
    · rw [if_neg h2, if_neg h2, List.append_nil, List.nil_append]

theorem mem_boundaryFill {f0 : ℕ} {rest : List ℕ} {n x : ℕ}
    (h : x ∈ boundaryFill (f0 :: rest) n) :
    x ∈ f0 :: rest ∨ x < f0 ∨ ((f0 :: rest).getLastD 0 ≤ x ∧ x < n) := by
  rw [boundaryFill_eq] at h
  rcases List.mem_append.mp h with h1 | h1
  · right; left
    by_cases h5 : f0 < 5
    · rw [if_pos h5] at h1; exact List.mem_range.mp h1
    · rw [if_neg h5] at h1; simp at h1
  · rcases List.mem_append.mp h1 with h2 | h2
    · exact Or.inl h2
    · right; right
      by_cases h5 : n - ((f0 :: rest).getLastD 0 + 1) < 5
      · rw [if_pos h5] at h2
        have := List.mem_range'_1.mp h2
        omega
      · rw [if_neg h5] at h2; simp at h2

theorem mem_fd_boundaryFill {f0 : ℕ} {rest : List ℕ} {n x : ℕ} (h : x ∈ f0 :: rest) :
    x ∈ boundaryFill (f0 :: rest) n := by
  rw [boundaryFill_eq]
  exact List.mem_append.mpr (Or.inr (List.mem_append.mpr (Or.inl h)))

theorem adjPairs_fd_boundaryFill {f0 : ℕ} {rest : List ℕ} {n : ℕ} {p : ℕ × ℕ}
    (h : p ∈ adjPairs (f0 :: rest)) : p ∈ adjPairs (boundaryFill (f0 :: rest) n) := by
  rw [boundaryFill_eq]
  exact adjPairs_append_right _ (adjPairs_append_left _ h)

theorem boundaryFill_chain_le {f0 : ℕ} {rest : List ℕ} {n : ℕ}
    (hc : List.Chain' (· < ·) (f0 :: rest)) :
    List.Chain' (· ≤ ·) (boundaryFill (f0 :: rest) n) := by
  rw [boundaryFill_eq]
  rw [List.chain'_append]
  refine ⟨?_, ?_, ?_⟩
  · by_cases h5 : f0 < 5
    · rw [if_pos h5]
      exact ((List.pairwise_lt_range f0).imp le_of_lt).chain'
    · rw [if_neg h5]; exact List.chain'_nil
  · rw [List.chain'_append]
    refine ⟨hc.imp (fun _ _ hab => le_of_lt hab), ?_, ?_⟩
    · by_cases h5 : n - ((f0 :: rest).getLastD 0 + 1) < 5
      · rw [if_pos h5]
        exact ((List.pairwise_lt_range' _ _).imp le_of_lt).chain'
      · rw [if_neg h5]; exact List.chain'_nil
    · intro x hx y hy
      rw [getLast?_cons_getLastD, Option.mem_some_iff] at hx
      subst hx
      by_cases h5 : n - ((f0 :: rest).getLastD 0 + 1) < 5
      · rw [if_pos h5] at hy
        cases hk : n - (f0 :: rest).getLastD 0 with
        | zero => rw [hk] at hy; simp at hy
        | succ k =>
          rw [hk] at hy
          rw [List.range'_succ, List.head?_cons, Option.mem_some_iff] at hy
          omega
      · rw [if_neg h5] at hy; simp at hy
  · intro x hx y hy
    by_cases h5 : f0 < 5
    · rw [if_pos h5] at hx
      have hxm : x ∈ List.range f0 := getLast?_mem_self hx
      rw [List.head?_append, List.head?_cons] at hy
      simp only [Option.or_some, Option.mem_some_iff] at hy
      subst hy
      exact le_of_lt (List.mem_range.mp hxm)
    · rw [if_neg h5] at hx; simp at hx

theorem mem_gapFill {a b x : ℕ} : x ∈ gapFill a b ↔ a + 1 ≤ x ∧ x < b := by
  unfold gapFill
  rw [List.mem_range'_1]
  omega

theorem mem_interiorFills {fd2 : List ℕ} {x : ℕ} :
    x ∈ interiorFills fd2 ↔
      ∃ p ∈ adjPairs fd2, (1 < (p.2 : ℤ) - (p.1 : ℤ) ∧ (p.2 : ℤ) - (p.1 : ℤ) < 6) ∧
        p.1 + 1 ≤ x ∧ x < p.2 := by
  unfold interiorFills
  rw [List.mem_flatten]
  constructor
  · rintro ⟨l, hl, hx⟩
    rcases List.mem_map.mp hl with ⟨p, hp, rfl⟩
    by_cases hcond : 1 < (p.2 : ℤ) - (p.1 : ℤ) ∧ (p.2 : ℤ) - (p.1 : ℤ) < 6
    · rw [if_pos hcond] at hx
      exact ⟨p, hp, hcond, mem_gapFill.mp hx⟩
    · rw [if_neg hcond] at hx
      simp at hx
  · rintro ⟨p, hp, hcond, hx⟩
    exact ⟨gapFill p.1 p.2, List.mem_map.mpr ⟨p, hp, by rw [if_pos hcond]⟩,
      mem_gapFill.mpr hx⟩

theorem optimize_censoring_cons (f0 : ℕ) (rest : List ℕ) (n : ℕ) :
    optimize_censoring (f0 :: rest) n =
      some (sortUnique (boundaryFill (f0 :: rest) n ++
        interiorFills (boundaryFill (f0 :: rest) n))) := rfl

theorem optimized_no_short_interior_run {f0 : ℕ} {rest : List ℕ} {n : ℕ}
    (hc : List.Chain' (· < ·) (f0 :: rest)) {out : List ℕ}
    (hout : optimize_censoring (f0 :: rest) n = some out) :
    ∀ p ∈ adjPairs out, p.2 - p.1 = 1 ∨ p.1 + 6 ≤ p.2 := by
  rw [optimize_censoring_cons] at hout
  have hout2 := (Option.some.inj hout).symm
  subst hout2
  intro p hp
  obtain ⟨a, b⟩ := p
  dsimp only
  have houtSorted := sortUnique_pairwise_lt
    (boundaryFill (f0 :: rest) n ++ interiorFills (boundaryFill (f0 :: rest) n))
  have hab : a < b := adjPairs_rel houtSorted.chain' hp
  have hmem : a ∈ sortUnique (boundaryFill (f0 :: rest) n ++
        interiorFills (boundaryFill (f0 :: rest) n)) ∧
      b ∈ sortUnique (boundaryFill (f0 :: rest) n ++
        interiorFills (boundaryFill (f0 :: rest) n)) := adjPairs_mem hp
  have hbet : ∀ c : ℕ, c ∈ sortUnique (boundaryFill (f0 :: rest) n ++
        interiorFills (boundaryFill (f0 :: rest) n)) → ¬(a < c ∧ c < b) :=
    fun c hcm => adjPairs_no_between (houtSorted.imp le_of_lt) hp hcm
  have hmemIff : ∀ {x : ℕ},
      x ∈ sortUnique (boundaryFill (f0 :: rest) n ++ interiorFills (boundaryFill (f0 :: rest) n)) ↔
        x ∈ boundaryFill (f0 :: rest) n ∨ x ∈ interiorFills (boundaryFill (f0 :: rest) n) := by
    intro x
    rw [mem_sortUnique, List.mem_append]
  by_contra hcon
  push_neg at hcon
  have h2 : a + 2 ≤ b ∧ b ≤ a + 5 := by omega
  have haf : a ∈ boundaryFill (f0 :: rest) n := by
    rcases hmemIff.mp hmem.1 with h | h
    · exact h
    · exfalso
      rcases mem_interiorFills.mp h with ⟨q, hq, hqc, hqb⟩
      obtain ⟨u, v⟩ := q
      by_cases hv : a + 1 < v
      · have hfill : a + 1 ∈ interiorFills (boundaryFill (f0 :: rest) n) :=
          mem_interiorFills.mpr ⟨(u, v), hq, hqc, by omega, hv⟩
        exact hbet (a + 1) (hmemIff.mpr (Or.inr hfill)) ⟨by omega, by omega⟩
      · have hvf : v ∈ boundaryFill (f0 :: rest) n := (adjPairs_mem hq).2
        exact hbet v (hmemIff.mpr (Or.inl hvf)) ⟨by omega, by omega⟩
  have hbf : b ∈ boundaryFill (f0 :: rest) n := by
    rcases hmemIff.mp hmem.2 with h | h
    · exact h
    · exfalso
      rcases mem_interiorFills.mp h with ⟨q, hq, hqc, hqb⟩
      obtain ⟨u, v⟩ := q
      by_cases hu : a < u
      · have huf : u ∈ boundaryFill (f0 :: rest) n := (adjPairs_mem hq).1
        exact hbet u (hmemIff.mpr (Or.inl huf)) ⟨hu, by omega⟩
      · have hfill : a + 1 ∈ interiorFills (boundaryFill (f0 :: rest) n) :=
          mem_interiorFills.mpr ⟨(u, v), hq, hqc, by omega, by omega⟩
        exact hbet (a + 1) (hmemIff.mpr (Or.inr hfill)) ⟨by omega, by omega⟩
  have hple : List.Pairwise (· ≤ ·) (boundaryFill (f0 :: rest) n) :=
    List.chain'_iff_pairwise.mp (boundaryFill_chain_le hc)
  have hbetFd2 : ∀ c ∈ boundaryFill (f0 :: rest) n, ¬(a < c ∧ c < b) :=
    fun c hcm => hbet c (hmemIff.mpr (Or.inl hcm))
  have hadj2 : (a, b) ∈ adjPairs (boundaryFill (f0 :: rest) n) :=
    adjPairs_of_set_adjacent hple haf hbf hab hbetFd2
  have hsmall : 1 < (b : ℤ) - (a : ℤ) ∧ (b : ℤ) - (a : ℤ) < 6 := by
    constructor <;> omega
  have hfill : a + 1 ∈ interiorFills (boundaryFill (f0 :: rest) n) :=
    mem_interiorFills.mpr ⟨(a, b), hadj2, hsmall, le_refl _, by omega⟩
  exact hbet (a + 1) (hmemIff.mpr (Or.inr hfill)) ⟨by omega, by omega⟩

theorem optimized_absorbs_short_gap {f0 : ℕ} {rest : List ℕ} {n : ℕ} {out : List ℕ}
    (hout : optimize_censoring (f0 :: rest) n = some out) :
    ∀ p ∈ adjPairs (f0 :: rest), p.1 + 2 ≤ p.2 → p.2 ≤ p.1 + 5 →
      ∀ c : ℕ, p.1 < c → c < p.2 → c ∈ out := by
  rw [optimize_censoring_cons] at hout
  have hout2 := (Option.some.inj hout).symm
  subst hout2
  intro p hp h2 h5 c hc1 hc2
  obtain ⟨a, b⟩ := p
  have hadj2 : (a, b) ∈ adjPairs (boundaryFill (f0 :: rest) n) := adjPairs_fd_boundaryFill hp
  have hfill : c ∈ interiorFills (boundaryFill (f0 :: rest) n) :=
    mem_interiorFills.mpr ⟨(a, b), hadj2, ⟨by omega, by omega⟩, by omega, hc2⟩
  exact mem_sortUnique.mpr (List.mem_append.mpr (Or.inr hfill))

theorem optimized_preserves_run_of_five {f0 : ℕ} {rest : List ℕ} {n : ℕ}
    (hc : List.Chain' (· < ·) (f0 :: rest)) {out : List ℕ}
    (hout : optimize_censoring (f0 :: rest) n = some out) :
    ∀ p ∈ adjPairs (f0 :: rest), p.2 = p.1 + 6 →
      ∀ c : ℕ, p.1 < c → c < p.2 → c ∉ out := by
  rw [optimize_censoring_cons] at hout
  have hout2 := (Option.some.inj hout).symm
  subst hout2
  intro p hp heq c hc1 hc2 hcm
  obtain ⟨a, b⟩ := p
  rcases List.mem_append.mp (mem_sortUnique.mp hcm) with hcf | hcf
  · rcases mem_boundaryFill hcf with h | h | h
    · have hpw : List.Pairwise (· ≤ ·) (f0 :: rest) :=
        (List.chain'_iff_pairwise.mp hc).imp le_of_lt
      exact adjPairs_no_between hpw hp h ⟨hc1, hc2⟩
    · have hha : f0 ≤ a := chain_lt_head_le hc a (adjPairs_mem hp).1
      omega
    · have hhb : b ≤ (f0 :: rest).getLastD 0 := chain_lt_le_getLastD hc (adjPairs_mem hp).2
      omega
  · rcases mem_interiorFills.mp hcf with ⟨q, hq, hqsmall, hqb⟩
    obtain ⟨u, v⟩ := q
    have hble : List.Pairwise (· ≤ ·) (boundaryFill (f0 :: rest) n) :=
      List.chain'_iff_pairwise.mp (boundaryFill_chain_le hc)
    have hadjf : (a, b) ∈ adjPairs (boundaryFill (f0 :: rest) n) := adjPairs_fd_boundaryFill hp
    have h1 := adjPairs_no_between hble hadjf (adjPairs_mem hq).1
    have h2 := adjPairs_no_between hble hadjf (adjPairs_mem hq).2
    have h3 := adjPairs_no_between hble hq (mem_fd_boundaryFill (n := n) (adjPairs_mem hp).1)
    have h4 := adjPairs_no_between hble hq (mem_fd_boundaryFill (n := n) (adjPairs_mem hp).2)
    simp only at h1 h2 h3 h4 hqsmall hqb
    omega

/-! ### Helper lemmas: Except reductions -/

theorem except_bind_ok {α β : Type} (a : α) (f : α → Except String β) :
    (Except.ok a : Except String α) >>= f = f a := rfl

theorem except_bind_err {α β : Type} (e : String) (f : α → Except String β) :
    (Except.error e : Except String α) >>= f = .error e := rfl

theorem except_map_ok {α β : Type} (f : α → β) (a : α) :
    (Except.ok a : Except String α).map f = .ok (f a) := rfl

theorem except_map_err {α β : Type} (f : α → β) (e : String) :
    (Except.error e : Except String α).map f = .error e := rfl

theorem except_pure {α : Type} (a : α) : (pure a : Except String α) = .ok a := rfl

theorem except_map_eq_ok {α β : Type} {f : α → β} {x : Except String α} {b : β} :
    x.map f = .ok b ↔ ∃ a, x = .ok a ∧ b = f a := by
  cases x with
  | error e => simp [Except.map]
  | ok a => simp [Except.map, eq_comm]

/-! ### Helper lemmas: compcor selection -/

theorem select_compcor_ok {cols out : List String} {n : NComp} {m : MaskArg}
    (h : select_compcor cols n m = .ok out) : out = cols := by
  cases n with
  | auto => exact (Except.ok.inj h).symm
  | num k =>
    rw [show select_compcor cols (.num k) m =
      (if k < cols.length then .error "NameError: name compcor_col is not defined"
       else .ok cols) from rfl] at h
    by_cases hk : k < cols.length
    · rw [if_pos hk] at h; exact absurd h (by simp)
    · rw [if_neg hk] at h; exact (Except.ok.inj h).symm

theorem compcor_step_t (json : List (String × String)) (mask : MaskArg) (nn : ℕ) :
    compcor_step json "t" mask nn = .ok ["t" ++ "_comp_cor_" ++ zfill2 nn] := by
  unfold compcor_step
  rw [if_pos rfl]

theorem compcor_step_a (json : List (String × String)) (mask : MaskArg) (nn : ℕ) :
    compcor_step json "a" mask nn =
      (match json.lookup ("a" ++ "_comp_cor_" ++ zfill2 nn) with
      | none => .error ("KeyError: " ++ ("a" ++ "_comp_cor_" ++ zfill2 nn))
      | some m => .ok (if maskMatches m mask then ["a" ++ "_comp_cor_" ++ zfill2 nn] else [])) := by
  unfold compcor_step
  rw [if_neg (by decide), if_pos rfl]

theorem label_compcor_eq (json : List (String × String)) (pfx : String) (n : NComp)
    (mask : MaskArg) :
    label_compcor json pfx n mask =
      (List.range (((json.map Prod.fst).filter
          (fun k => strContains k (pfx ++ "_comp_cor"))).length)).mapM
        (compcor_step json pfx mask) >>= fun parts =>
          select_compcor parts.flatten n mask := rfl

theorem compcor_steps_mask : ∀ {json : List (String × String)} {msk : String}
    {L : List ℕ} {res : List (List String)},
    L.mapM (compcor_step json "a" (.s msk)) = .ok res →
    ∀ c ∈ res.flatten, json.lookup c = some msk
  | _, _, [], res, h, c, hc => by
    rw [List.mapM_nil] at h
    rw [← Except.ok.inj h] at hc
    simp at hc
  | json, msk, nn :: L2, res, h, c, hc => by
    rw [List.mapM_cons] at h
    rw [compcor_step_a] at h
    cases hl : json.lookup ("a" ++ "_comp_cor_" ++ zfill2 nn) with
    | none =>
      rw [hl] at h
      exact absurd h (by simp [except_bind_err])
    | some m =>
      rw [hl] at h
      rw [except_bind_ok] at h
      cases hrest : L2.mapM (compcor_step json "a" (.s msk)) with
      | error e => rw [hrest] at h; exact absurd h (by simp [except_bind_err])
      | ok parts =>
        rw [hrest, except_bind_ok, except_pure] at h
        rw [← Except.ok.inj h] at hc
        rw [List.flatten_cons] at hc
        rcases List.mem_append.mp hc with h1 | h1
        · by_cases hmm : maskMatches m (.s msk)
          · rw [if_pos hmm] at h1
            rcases List.mem_singleton.mp h1 with rfl
            have : m = msk := by
              simpa [maskMatches] using hmm
            rw [hl, this]
          · rw [if_neg hmm] at h1; simp at h1
        · exact compcor_steps_mask hrest c h1

theorem label_compcor_a_mask {json : List (String × String)} {msk : String} {n : NComp}
    {cols : List String} (h : label_compcor json "a" n (.s msk) = .ok cols) :
    ∀ c ∈ cols, json.lookup c = some msk := by
  rw [label_compcor_eq] at h
  cases hm : (List.range (((json.map Prod.fst).filter
      (fun k => strContains k ("a" ++ "_comp_cor"))).length)).mapM
      (compcor_step json "a" (.s msk)) with
  | error e => rw [hm, except_bind_err] at h; exact absurd h (by simp)
  | ok parts =>
    rw [hm, except_bind_ok] at h
    rw [select_compcor_ok h]
    exact compcor_steps_mask hm

theorem load_acompcor_combined_only {json : List (String × String)} {n : NComp}
    {cols : List String} (h : load_acompcor json n true = .ok cols) :
    ∀ c ∈ cols, json.lookup c = some "combined" := by
  unfold load_acompcor at h
  rw [if_pos rfl] at h
  exact label_compcor_a_mask h

theorem load_acompcor_wm_before_csf {json : List (String × String)} {n : NComp}
    {cols : List String} (h : load_acompcor json n false = .ok cols) :
    ∃ wm csf, cols = wm ++ csf ∧ (∀ c ∈ wm, json.lookup c = some "WM") ∧
      (∀ c ∈ csf, json.lookup c = some "CSF") := by
  unfold load_acompcor at h
  rw [if_neg (by simp)] at h
  cases hw : label_compcor json "a" n (.s "WM") with
  | error e => rw [hw, except_bind_err] at h; exact absurd h (by simp)
  | ok wm =>
    rw [hw, except_bind_ok] at h
    cases hcsf : label_compcor json "a" n (.s "CSF") with
    | error e => rw [hcsf, except_bind_err] at h; exact absurd h (by simp)
    | ok csf =>
      rw [hcsf, except_bind_ok, except_pure] at h
      exact ⟨wm, csf, (Except.ok.inj h).symm, label_compcor_a_mask hw, label_compcor_a_mask hcsf⟩

theorem label_compcor_t_mask_irrelevant (json1 json2 : List (String × String))
    (hkeys : json1.map Prod.fst = json2.map Prod.fst) (n : NComp) (m1 m2 : MaskArg) :
    label_compcor json1 "t" n m1 = label_compcor json2 "t" n m2 := by
  rw [label_compcor_eq, label_compcor_eq, hkeys]
  have hstep : compcor_step json1 "t" m1 = compcor_step json2 "t" m2 :=
    funext fun nn => by rw [compcor_step_t, compcor_step_t]
  rw [hstep]
  rfl

/-! ### Helper lemmas: column resolution -/

theorem check_params_ok_iff : ∀ (df : DF) (params : List String),
    check_params df params = .ok () ↔ ∀ p ∈ params, p ∈ df.columns
  | _, [] => by simp [check_params]
  | df, par :: rest => by
    unfold check_params
    by_cases hm : par ∈ df.columns
    · rw [if_pos hm]
      rw [check_params_ok_iff df rest]
      simp [hm]
    · rw [if_neg hm]
      constructor
      · intro h; exact absurd h (by simp)
      · intro h; exact absurd (h par (List.mem_cons_self _ _)) hm

theorem check_params_error_names : ∀ (df : DF) (params : List String) (e : String),
    check_params df params = .error e →
    ∃ p ∈ params, p ∉ df.columns ∧ e = ("The parameter " ++ p ++
      " cannot be found in the available confounds. You may want to use a different denoising strategy")
  | _, [], e => by simp [check_params]
  | df, par :: rest, e => by
    unfold check_params
    by_cases hm : par ∈ df.columns
    · rw [if_pos hm]
      intro h
      rcases check_params_error_names df rest e h with ⟨p, hp, hnp, he⟩
      exact ⟨p, List.mem_cons_of_mem _ hp, hnp, he⟩
    · rw [if_neg hm]
      intro h
      exact ⟨par, List.mem_cons_self _ _, hm, (Except.error.inj h).symm⟩

theorem select_ok_of_mem : ∀ (df : DF) (params : List String),
    (∀ p ∈ params, p ∈ df.columns) →
    ∃ out, df.select params = .ok out ∧ out.columns = params
  | df, [], _ => ⟨⟨[]⟩, rfl, rfl⟩
  | df, par :: rest, h => by
    have hfind : ∃ c, df.cols.find? (fun c : String × List Cell => c.1 == par) = some c := by
      have hmem : par ∈ df.columns := h par (List.mem_cons_self _ _)
      rcases List.mem_map.mp hmem with ⟨c, hc, hc1⟩
      have : (df.cols.find? (fun c : String × List Cell => c.1 == par)).isSome :=
        List.find?_isSome.mpr ⟨c, hc, by simp [hc1]⟩
      exact Option.isSome_iff_exists.mp this
    rcases hfind with ⟨c, hc⟩
    have hc1 : c.1 = par := by
      have := List.find?_some hc
      simpa using this
    rcases select_ok_of_mem df rest (fun p hp => h p (List.mem_cons_of_mem _ hp)) with
      ⟨out, hout, hcols⟩
    rcases except_map_eq_ok.mp hout with ⟨cs, hcs, hout2⟩
    refine ⟨⟨c :: cs⟩, ?_, ?_⟩
    · unfold DF.select
      rw [List.mapM_cons, hc, except_bind_ok, hcs, except_bind_ok, except_pure]
      rfl
    · have : out.columns = cs.map Prod.fst := by rw [hout2]; rfl
      show (c :: cs).map Prod.fst = par :: rest
      rw [List.map_cons, hc1, ← this, hcols]

theorem find_confounds_error_iff : ∀ (df : DF) (keywords : List String),
    (∃ e, find_confounds df keywords = .error e) ↔
      ∃ k ∈ keywords, ∀ col ∈ df.columns, ¬ strContains col k
  | df, [] => by simp [find_confounds]
  | df, key :: rest => by
    unfold find_confounds
    by_cases he : (df.columns.filter (fun col => strContains col key)).isEmpty
    · rw [if_pos he]
      have hall : ∀ col ∈ df.columns, ¬ strContains col key := by
        intro col hcol hcontains
        have : col ∈ df.columns.filter (fun col => strContains col key) :=
          List.mem_filter.mpr ⟨hcol, hcontains⟩
        rw [List.isEmpty_iff.mp he] at this
        simp at this
      constructor
      · intro _; exact ⟨key, List.mem_cons_self _ _, hall⟩
      · intro _; exact ⟨_, rfl⟩
    · rw [if_neg he]
      have hex : ∃ col ∈ df.columns, strContains col key = true := by simpa using he
      rcases hex with ⟨col0, hcol0, hcont0⟩
      constructor
      · rintro ⟨e, hmap⟩
        cases hrec : find_confounds df rest with
        | error e2 =>
          rcases (find_confounds_error_iff df rest).mp ⟨e2, hrec⟩ with ⟨k, hk, hkall⟩
          exact ⟨k, List.mem_cons_of_mem _ hk, hkall⟩
        | ok more =>
          rw [hrec, except_map_ok] at hmap
          exact absurd hmap (by simp)
      · rintro ⟨k, hk, hkall⟩
        rcases List.mem_cons.mp hk with rfl | hk2
        · exact absurd hcont0 (by simpa using hkall col0 hcol0)
        · rcases (find_confounds_error_iff df rest).mpr ⟨k, hk2, hkall⟩ with ⟨e2, hrec⟩
          exact ⟨e2, by rw [hrec, except_map_err]⟩

theorem find_confounds_ok : ∀ (df : DF) (keywords : List String),
    (∀ k ∈ keywords, ∃ col ∈ df.columns, strContains col k) →
    find_confounds df keywords =
      .ok ((keywords.map (fun k => df.columns.filter (fun col => strContains col k))).flatten)
  | df, [], _ => rfl
  | df, key :: rest, h => by
    unfold find_confounds
    have hne : ¬(df.columns.filter (fun col => strContains col key)).isEmpty := by
      rcases h key (List.mem_cons_self _ _) with ⟨col, hcol, hcontains⟩
      have : col ∈ df.columns.filter (fun col => strContains col key) :=
        List.mem_filter.mpr ⟨hcol, hcontains⟩
      intro hemp
      rw [List.isEmpty_iff.mp hemp] at this
      simp at this
    rw [if_neg hne]
    rw [find_confounds_ok df rest (fun k hk => h k (List.mem_cons_of_mem _ hk))]
    rw [except_map_ok]
    rw [List.map_cons, List.flatten_cons]

/-! ### Helper lemmas: motion PCA -/

theorem pca_motion_at_capacity (scaleFn : Mat → Mat) (pcaFn : ℕ → Mat → Mat) (df : DF)
    (hp : ∀ x : Mat, (pcaFn df.ncols x).length = df.ncols) :
    ∃ out, pca_motion scaleFn pcaFn df df.ncols = .ok out ∧ out.ncols = df.ncols ∧
      out.columns = (List.range df.ncols).map (fun i => "motion_pca_" ++ Nat.repr (i + 1)) := by
  unfold pca_motion
  rw [if_neg (lt_irrefl df.ncols)]
  refine ⟨_, rfl, ?_, ?_⟩
  · show ((pcaFn df.ncols (scaleFn ((dropna df).cols.map Prod.snd))).enum.map
      (fun p => ("motion_pca_" ++ Nat.repr (p.1 + 1), p.2))).length = df.ncols
    rw [List.length_map, List.enum_length, hp]
  · show ((pcaFn df.ncols (scaleFn ((dropna df).cols.map Prod.snd))).enum.map
      (fun p => ("motion_pca_" ++ Nat.repr (p.1 + 1), p.2))).map Prod.fst =
      (List.range df.ncols).map (fun i => "motion_pca_" ++ Nat.repr (i + 1))
    rw [List.map_map]
    have : (Prod.fst ∘ fun p : ℕ × List Cell => ("motion_pca_" ++ Nat.repr (p.1 + 1), p.2)) =
        (fun i => "motion_pca_" ++ Nat.repr (i + 1)) ∘ Prod.fst := rfl
    rw [this, ← List.map_map, List.enum_map_fst, hp]

theorem pca_motion_over_capacity (scaleFn : Mat → Mat) (pcaFn : ℕ → Mat → Mat) (df : DF) :
    pca_motion scaleFn pcaFn df (df.ncols + 1) =
      .error ("User requested n_motion=" ++ Nat.repr (df.ncols + 1) ++
        " motion components, but found only " ++ Nat.repr df.ncols ++ ".") := by
  unfold pca_motion
  rw [if_pos (Nat.lt_succ_self _)]

/-! ### Helper lemmas: assembly -/

theorem concatAll_columns (L : List DF) : (concatAll L).columns = (L.map DF.columns).flatten := by
  show ((L.map DF.cols).flatten).map Prod.fst = (L.map DF.columns).flatten
  rw [List.map_flatten, List.map_map]
  rfl

theorem concatAll_ncols (L : List DF) : (concatAll L).ncols = (L.map DF.ncols).sum := by
  show ((L.map DF.cols).flatten).length = (L.map DF.ncols).sum
  rw [List.length_flatten, List.map_map]
  rfl

theorem confounds_to_ndarray_shape {d : DF} {dm : Bool} {M : Mat} {ls : List String}
    (h : confounds_to_ndarray d dm = .ok (M, ls)) :
    ls = d.columns ∧ M.length = d.ncols := by
  unfold confounds_to_ndarray at h
  by_cases hdm : dm
  · rw [if_pos hdm] at h
    by_cases hnan : ((d.cols.map Prod.snd).map backfill_col).any (fun col => col.any Cell.isNan)
    · rw [if_pos hnan] at h; exact absurd h (by simp)
    · rw [if_neg hnan] at h
      have h2 := Except.ok.inj h
      refine ⟨?_, ?_⟩
      · rw [← (Prod.mk.injEq _ _ _ _).mp h2 |>.2]
      · rw [← (Prod.mk.injEq _ _ _ _).mp h2 |>.1]
        show (((d.cols.map Prod.snd).map backfill_col).map demean_col).length = d.ncols
        rw [List.length_map, List.length_map, List.length_map]
        rfl
  · rw [if_neg hdm] at h
    have h2 := Except.ok.inj h
    refine ⟨?_, ?_⟩
    · rw [← (Prod.mk.injEq _ _ _ _).mp h2 |>.2]
    · rw [← (Prod.mk.injEq _ _ _ _).mp h2 |>.1]
      show ((d.cols.map Prod.snd).map backfill_col).length = d.ncols
      rw [List.length_map, List.length_map]
      rfl

set_option maxHeartbeats 2000000 in
theorem load_single_assembles (scaleFn : Mat → Mat) (pcaFn : ℕ → Mat → Mat) (c : Confounds)
    (df : DF) (json : List (String × String)) (bM bC bH bW bG bCC bA : DF)
    (hm : "motion" ∈ c.strategy → load_motion scaleFn pcaFn df c.motion c.n_motion = .ok bM)
    (hcen : "censoring" ∈ c.strategy →
      load_censoring df c.censoring c.fd_thresh c.std_dvars_thresh = .ok bC)
    (hhp : "high_pass" ∈ c.strategy → load_high_pass df = .ok bH)
    (hwc : "wm_csf" ∈ c.strategy → load_wm_csf df c.wm_csf = .ok bW)
    (hg : "global" ∈ c.strategy → load_global df c.global_signal = .ok bG)
    (hcc : "compcor" ∈ c.strategy →
      load_compcor df json c.compcor c.n_compcor c.acompcor_combined = .ok bCC)
    (ha : "ica_aroma" ∈ c.strategy → load_ica_aroma df = .ok bA) :
    load_single scaleFn pcaFn c df json =
      confounds_to_ndarray (concatAll (
        (if "motion" ∈ c.strategy then [bM] else []) ++
        (if "censoring" ∈ c.strategy then [bC] else []) ++
        (if "high_pass" ∈ c.strategy then [bH] else []) ++
        (if "wm_csf" ∈ c.strategy then [bW] else []) ++
        (if "global" ∈ c.strategy then [bG] else []) ++
        (if "compcor" ∈ c.strategy then [bCC] else []) ++
        (if "ica_aroma" ∈ c.strategy then [bA] else []))) c.demean := by
  unfold load_single
  by_cases h1 : "motion" ∈ c.strategy <;>
    by_cases h2 : "censoring" ∈ c.strategy <;>
    by_cases h3 : "high_pass" ∈ c.strategy <;>
    by_cases h4 : "wm_csf" ∈ c.strategy <;>
    by_cases h5 : "global" ∈ c.strategy <;>
    by_cases h6 : "compcor" ∈ c.strategy <;>
    by_cases h7 : "ica_aroma" ∈ c.strategy <;>
    simp only [h1, h2, h3, h4, h5, h6, h7, if_true, if_false, ite_true, ite_false,
      hm, hcen, hhp, hwc, hg, hcc, ha,
      except_map_ok, except_bind_ok, except_pure, concatAll, concatDF,
      List.map_cons, List.map_nil,
      List.flatten_cons, List.flatten_nil, List.append_nil, List.nil_append,
      List.append_assoc, List.cons_append]

/-! ### Helper lemmas: strategy validation and batch loading -/

theorem check_strategy_list_ok_iff : ∀ (l : List String),
    check_strategy_list l = .ok () ↔ ∀ conf ∈ l, conf ∈ all_confounds
  | [] => by simp [check_strategy_list]
  | conf :: rest => by
    unfold check_strategy_list
    by_cases hm : conf ∈ all_confounds
    · rw [if_pos hm, check_strategy_list_ok_iff rest]
      simp [hm]
    · rw [if_neg hm]
      constructor
      · intro h; exact absurd h (by simp)
      · intro h; exact absurd (h conf (List.mem_cons_self _ _)) hm

theorem mk_confounds_eq (strategy : StrategyInput) (motion : String) (n_motion : ℕ)
    (censoring : String) (fd_thresh std_dvars_thresh : ℚ)
    (wm_csf global_signal compcor : String) (acompcor_combined : Bool) (n_compcor : NComp)
    (demean : Bool) :
    mk_confounds strategy motion n_motion censoring fd_thresh std_dvars_thresh wm_csf
      global_signal compcor acompcor_combined n_compcor demean =
      (sanitize_strategy strategy).map
        (fun s => ⟨s, motion, n_motion, censoring, fd_thresh, std_dvars_thresh, wm_csf,
          global_signal, compcor, acompcor_combined, n_compcor, demean⟩) := rfl

theorem load_list_nil (scaleFn : Mat → Mat) (pcaFn : ℕ → Mat → Mat) (c : Confounds) :
    load_list scaleFn pcaFn c [] = .ok [] := rfl

theorem load_list_cons (scaleFn : Mat → Mat) (pcaFn : ℕ → Mat → Mat) (c : Confounds)
    (t : Table) (ts : List Table) :
    load_list scaleFn pcaFn c (t :: ts) =
      (load_single scaleFn pcaFn c t.1 t.2 >>= fun r =>
        load_list scaleFn pcaFn c ts >>= fun rs => pure (r :: rs)) := rfl

theorem load_eq_single (scaleFn : Mat → Mat) (pcaFn : ℕ → Mat → Mat) (c : Confounds)
    (t : Table) :
    Confounds.load scaleFn pcaFn c (.single t) =
      (load_list scaleFn pcaFn c [t] >>= fun results =>
        match results with
        | r :: _ => pure (.single r)
        | [] => .error "IndexError: list index out of range") := rfl

theorem load_eq_listOf (scaleFn : Mat → Mat) (pcaFn : ℕ → Mat → Mat) (c : Confounds)
    (ts : List Table) :
    Confounds.load scaleFn pcaFn c (.listOf ts) =
      (load_list scaleFn pcaFn c ts >>= fun results =>
        pure (.listOf results)) := rfl

theorem except_bind_pure_comp {α β : Type} (x : Except String α) (g : α → β) :
    (x >>= fun a => (pure (g a) : Except String β)) = x.map g := by
  cases x <;> rfl

/-! ### Claim theorems -/

/-- C1: the claim says `_select_compcor` keeps all columns for `"auto"` or an
over-request and otherwise returns the first `n_compcor` columns. The keep-all
branches behave as claimed, but the truncation branch reads the undefined
name `compcor_col` (a typo for `compcor_cols`) and raises `NameError`, so
requesting fewer columns than are enumerated crashes instead of truncating:
the code contradicts the function's own docstring and inline comment. -/
theorem C1_select_compcor_truncation_name_error :
    select_compcor ["a_comp_cor_00", "a_comp_cor_01"] (.num 1) (.s "combined") =
      .error "NameError: name compcor_col is not defined" ∧
    select_compcor ["a_comp_cor_00", "a_comp_cor_01"] .auto (.s "combined") =
      .ok ["a_comp_cor_00", "a_comp_cor_01"] ∧
    select_compcor ["a_comp_cor_00", "a_comp_cor_01"] (.num 2) (.s "combined") =
      .ok ["a_comp_cor_00", "a_comp_cor_01"] ∧
    select_compcor ["a_comp_cor_00", "a_comp_cor_01"] (.num 5) (.s "combined") =
      .ok ["a_comp_cor_00", "a_comp_cor_01"] :=
  ⟨rfl, rfl, rfl, rfl⟩

/-- C2: on a table whose framewise-displacement and DVARS columns produce no
outliers, basic censoring returns a frame with zero indicator columns, but
optimized censoring reads `fd_outliers[0]` of the empty outlier array and
raises `IndexError`, contradicting the claimed no-op edge case. -/
theorem C2_load_censoring_empty_optimized_index_error :
    load_censoring ⟨[("framewise_displacement", [Cell.nan, Cell.val 1, Cell.val 1]),
        ("std_dvars", [Cell.val 1, Cell.val 1, Cell.val 1])]⟩ "optimized" 2 3 =
      .error "IndexError: index 0 is out of bounds for axis 0 with size 0" ∧
    load_censoring ⟨[("framewise_displacement", [Cell.nan, Cell.val 1, Cell.val 1]),
        ("std_dvars", [Cell.val 1, Cell.val 1, Cell.val 1])]⟩ "basic" 2 3 =
      .ok ⟨[]⟩ :=
  ⟨rfl, rfl⟩

/-- C3 counterexample: the claim says interior clean runs of 5 or fewer
timepoints are absorbed (none shorter than 6 survives). On outliers 5 and 11
(clean run 6..10 of exactly 5 timepoints, 20 scans) the optimized pass leaves
the run untouched: the output still has adjacent outliers 5 and 11, whose
difference 6 violates the claimed bound of 7. -/
theorem C3_counterexample_run_of_five_survives :
    optimize_censoring [5, 11] 20 = some [5, 11] ∧
    ¬(∀ p ∈ adjPairs [5, 11], p.2 - p.1 = 1 ∨ p.1 + 7 ≤ p.2) := by
  constructor
  · decide
  · decide

/-- C3 (amended): for every non-empty strictly sorted outlier index list, the
optimized pass leaves no interior clean run shorter than 5 timepoints
(adjacent output outliers differ by 1 or by at least 6); interior clean runs
of 4 or fewer timepoints (adjacent input outliers with difference strictly
between 1 and 6) are absorbed entirely; and interior clean runs of exactly 5
timepoints (difference exactly 6) survive unchanged. -/
theorem C3_optimize_censoring_run_bounds :
    ∀ (fd : List ℕ) (n : ℕ) (out : List ℕ), fd ≠ [] → List.Chain' (· < ·) fd →
      optimize_censoring fd n = some out →
      ((∀ p ∈ adjPairs out, p.2 - p.1 = 1 ∨ p.1 + 6 ≤ p.2) ∧
       (∀ p ∈ adjPairs fd, p.1 + 2 ≤ p.2 → p.2 ≤ p.1 + 5 →
         ∀ c : ℕ, p.1 < c → c < p.2 → c ∈ out) ∧
       (∀ p ∈ adjPairs fd, p.2 = p.1 + 6 → ∀ c : ℕ, p.1 < c → c < p.2 → c ∉ out)) := by
  intro fd n out hne hc hout
  cases fd with
  | nil => exact absurd rfl hne
  | cons f0 rest =>
    exact ⟨optimized_no_short_interior_run hc hout,
      optimized_absorbs_short_gap hout,
      optimized_preserves_run_of_five hc hout⟩

/-- C3 witness: on outliers [5, 8, 20] with 30 scans the gap 5..8 (clean run
6, 7) is absorbed, and on outliers [5, 11] with 20 scans the clean run of
exactly 5 timepoints survives (8 is not censored). -/
theorem C3_optimize_censoring_run_bounds_witness :
    7 ∈ ([5, 6, 7, 8, 20] : List ℕ) ∧ 8 ∉ ([5, 11] : List ℕ) :=
  ⟨(C3_optimize_censoring_run_bounds [5, 8, 20] 30 [5, 6, 7, 8, 20] (by decide)
      (by norm_num [List.chain'_cons, List.chain'_singleton])
      (by decide)).2.1 (5, 8) (by decide) (by decide) (by decide) 7 (by decide) (by decide),
   (C3_optimize_censoring_run_bounds [5, 11] 20 [5, 11] (by decide)
      (by norm_num [List.chain'_cons, List.chain'_singleton])
      (by decide)).2.2 (5, 11) (by decide) (by decide) 8 (by decide) (by decide)⟩

/-- C4: whenever every category loader that is active in the strategy
succeeds, `_load_single` equals the assembly postprocessing applied to the
column-concatenation of the active blocks in the fixed order motion,
censoring, high_pass, wm_csf, global, compcor, ica_aroma; on success the
label sequence is the concatenation of the block labels in that order, the
matrix column count is the sum of the active blocks' column counts, and the
labels and matrix columns have equal length. -/
theorem C4_load_single_assembly (scaleFn : Mat → Mat) (pcaFn : ℕ → Mat → Mat) (c : Confounds)
    (df : DF) (json : List (String × String)) (bM bC bH bW bG bCC bA : DF)
    (hm : "motion" ∈ c.strategy → load_motion scaleFn pcaFn df c.motion c.n_motion = .ok bM)
    (hcen : "censoring" ∈ c.strategy →
      load_censoring df c.censoring c.fd_thresh c.std_dvars_thresh = .ok bC)
    (hhp : "high_pass" ∈ c.strategy → load_high_pass df = .ok bH)
    (hwc : "wm_csf" ∈ c.strategy → load_wm_csf df c.wm_csf = .ok bW)
    (hg : "global" ∈ c.strategy → load_global df c.global_signal = .ok bG)
    (hcc : "compcor" ∈ c.strategy →
      load_compcor df json c.compcor c.n_compcor c.acompcor_combined = .ok bCC)
    (ha : "ica_aroma" ∈ c.strategy → load_ica_aroma df = .ok bA) :
    ∀ blocks : List DF,
      blocks = ((if "motion" ∈ c.strategy then [bM] else []) ++
        (if "censoring" ∈ c.strategy then [bC] else []) ++
        (if "high_pass" ∈ c.strategy then [bH] else []) ++
        (if "wm_csf" ∈ c.strategy then [bW] else []) ++
        (if "global" ∈ c.strategy then [bG] else []) ++
        (if "compcor" ∈ c.strategy then [bCC] else []) ++
        (if "ica_aroma" ∈ c.strategy then [bA] else [])) →
      load_single scaleFn pcaFn c df json =
        confounds_to_ndarray (concatAll blocks) c.demean ∧
      ∀ (m : Mat) (ls : List String),
        confounds_to_ndarray (concatAll blocks) c.demean = .ok (m, ls) →
        ls = (blocks.map DF.columns).flatten ∧
        m.length = (blocks.map DF.ncols).sum ∧ ls.length = m.length := by
  intro blocks hblocks
  subst hblocks
  refine ⟨load_single_assembles scaleFn pcaFn c df json bM bC bH bW bG bCC bA
    hm hcen hhp hwc hg hcc ha, ?_⟩
  intro m ls h
  have hshape := confounds_to_ndarray_shape h
  have hls : ls = ((((if "motion" ∈ c.strategy then [bM] else []) ++
      (if "censoring" ∈ c.strategy then [bC] else []) ++
      (if "high_pass" ∈ c.strategy then [bH] else []) ++
      (if "wm_csf" ∈ c.strategy then [bW] else []) ++
      (if "global" ∈ c.strategy then [bG] else []) ++
      (if "compcor" ∈ c.strategy then [bCC] else []) ++
      (if "ica_aroma" ∈ c.strategy then [bA] else []))).map DF.columns).flatten := by
    rw [hshape.1, concatAll_columns]
  refine ⟨hls, ?_, ?_⟩
  · rw [hshape.2, concatAll_ncols]
  · rw [hls, hshape.2, concatAll_ncols, List.length_flatten, List.map_map]
    have hfn : (List.length ∘ DF.columns) = DF.ncols :=
      funext fun d => List.length_map _ _
    rw [hfn]

/-- C4 witness: a concrete one-category strategy (`high_pass` only) on a
two-row table with one cosine column. -/
theorem C4_load_single_assembly_witness :
    load_single (fun m => m) (fun _ m => m)
      ⟨["high_pass"], "full", 0, "basic", 2, 3, "basic", "basic", "anat", true, .auto, false⟩
      ⟨[("cosine00", [Cell.val 0, Cell.val 1])]⟩ [] =
      confounds_to_ndarray
        (concatAll [(⟨[("cosine00", [Cell.val 0, Cell.val 1])]⟩ : DF)]) false :=
  (C4_load_single_assembly (fun m => m) (fun _ m => m)
    ⟨["high_pass"], "full", 0, "basic", 2, 3, "basic", "basic", "anat", true, .auto, false⟩
    ⟨[("cosine00", [Cell.val 0, Cell.val 1])]⟩ [] ⟨[]⟩ ⟨[]⟩
    ⟨[("cosine00", [Cell.val 0, Cell.val 1])]⟩ ⟨[]⟩ ⟨[]⟩ ⟨[]⟩ ⟨[]⟩
    (fun h => absurd h (by decide)) (fun h => absurd h (by decide)) (fun _ => rfl)
    (fun h => absurd h (by decide)) (fun h => absurd h (by decide))
    (fun h => absurd h (by decide)) (fun h => absurd h (by decide))
    [(⟨[("cosine00", [Cell.val 0, Cell.val 1])]⟩ : DF)] (by decide)).1

/-- C5: anatomical compcor with `acompcor_combined=True` returns only columns
whose sidecar mask label is `"combined"`; with `False` it returns a WM block
followed by a CSF block, so every returned WM-mask column precedes every
returned CSF-mask column; and temporal enumeration ignores the mask argument
and the mask attributes entirely (it depends only on the sidecar keys). -/
theorem C5_compcor_mask_selection :
    (∀ (json : List (String × String)) (n : NComp) (cols : List String),
      load_acompcor json n true = .ok cols →
        ∀ c ∈ cols, json.lookup c = some "combined") ∧
    (∀ (json : List (String × String)) (n : NComp) (cols : List String),
      load_acompcor json n false = .ok cols →
        ∃ wm csf, cols = wm ++ csf ∧ (∀ c ∈ wm, json.lookup c = some "WM") ∧
          (∀ c ∈ csf, json.lookup c = some "CSF")) ∧
    (∀ json1 json2 : List (String × String), json1.map Prod.fst = json2.map Prod.fst →
      ∀ (n : NComp) (m1 m2 : MaskArg),
        label_compcor json1 "t" n m1 = label_compcor json2 "t" n m2) :=
  ⟨fun _ _ _ h => load_acompcor_combined_only h,
   fun _ _ _ h => load_acompcor_wm_before_csf h,
   fun j1 j2 hk n m1 m2 => label_compcor_t_mask_irrelevant j1 j2 hk n m1 m2⟩

/-- C5 witness: a sidecar with one WM, one CSF and one combined component;
combined selection returns exactly the combined column. -/
theorem C5_compcor_mask_selection_witness :
    List.lookup "a_comp_cor_02" [("a_comp_cor_00", "WM"), ("a_comp_cor_01", "CSF"),
      ("a_comp_cor_02", "combined")] = some "combined" :=
  C5_compcor_mask_selection.1
    [("a_comp_cor_00", "WM"), ("a_comp_cor_01", "CSF"), ("a_comp_cor_02", "combined")]
    .auto ["a_comp_cor_02"] rfl "a_comp_cor_02" (by decide)

/-- C6: on a motion block with `k` columns, `_pca_motion` requested with
`n_components = k` succeeds (given that PCA returns exactly the requested
number of component columns) and returns `k` components labelled
`motion_pca_1` … `motion_pca_k`; requested with `k + 1` it fails with the
availability error before invoking PCA, leaving no output. -/
theorem C6_pca_motion_capacity :
    ∀ (scaleFn : Mat → Mat) (pcaFn : ℕ → Mat → Mat) (df : DF) (k : ℕ),
      df.ncols = k → (∀ x : Mat, (pcaFn k x).length = k) →
      (∃ out, pca_motion scaleFn pcaFn df k = .ok out ∧ out.ncols = k ∧
        out.columns = (List.range k).map (fun i => "motion_pca_" ++ Nat.repr (i + 1))) ∧
      pca_motion scaleFn pcaFn df (k + 1) =
        .error ("User requested n_motion=" ++ Nat.repr (k + 1) ++
          " motion components, but found only " ++ Nat.repr k ++ ".") := by
  intro scaleFn pcaFn df k hk hp
  subst hk
  exact ⟨pca_motion_at_capacity scaleFn pcaFn df hp,
    pca_motion_over_capacity scaleFn pcaFn df⟩

/-- C6 witness: a two-column block; requesting three components fails with
the availability error. -/
theorem C6_pca_motion_capacity_witness :
    pca_motion (fun m => m) (fun n _ => (List.range n).map (fun _ => ([] : List Cell)))
      ⟨[("trans_x", []), ("trans_y", [])]⟩ (2 + 1) =
      .error ("User requested n_motion=" ++ Nat.repr (2 + 1) ++
        " motion components, but found only " ++ Nat.repr 2 ++ ".") :=
  (C6_pca_motion_capacity (fun m => m)
    (fun n _ => (List.range n).map (fun _ => ([] : List Cell)))
    ⟨[("trans_x", []), ("trans_y", [])]⟩ 2 rfl (fun x => by simp)).2

/-- C7: exact-name resolution (`_check_params`) succeeds exactly when every
expected column is present, every failure message names an absent column and
advises a strategy change, and on success the selection returns exactly the
expected columns in order; keyword resolution (`_find_confounds`) fails
exactly when some keyword matches no column name, and otherwise returns, per
keyword in order, every column containing that keyword. -/
theorem C7_column_resolution :
    (∀ (df : DF) (params : List String),
      check_params df params = .ok () ↔ ∀ p ∈ params, p ∈ df.columns) ∧
    (∀ (df : DF) (params : List String) (e : String), check_params df params = .error e →
      ∃ p ∈ params, p ∉ df.columns ∧ e = ("The parameter " ++ p ++
        " cannot be found in the available confounds. You may want to use a different denoising strategy")) ∧
    (∀ (df : DF) (params : List String), (∀ p ∈ params, p ∈ df.columns) →
      ∃ out, df.select params = .ok out ∧ out.columns = params) ∧
    (∀ (df : DF) (keywords : List String),
      (∃ e, find_confounds df keywords = .error e) ↔
        ∃ k ∈ keywords, ∀ col ∈ df.columns, ¬ strContains col k) ∧
    (∀ (df : DF) (keywords : List String),
      (∀ k ∈ keywords, ∃ col ∈ df.columns, strContains col k) →
      find_confounds df keywords = .ok ((keywords.map (fun k =>
        df.columns.filter (fun col => strContains col k))).flatten)) :=
  ⟨check_params_ok_iff, check_params_error_names, select_ok_of_mem,
   find_confounds_error_iff, find_confounds_ok⟩

/-- C7 witness: selecting the single present column `csf` succeeds and
returns exactly that column. -/
theorem C7_column_resolution_witness :
    ∃ out, DF.select ⟨[("csf", [Cell.val 1])]⟩ ["csf"] = .ok out ∧
      out.columns = ["csf"] :=
  C7_column_resolution.2.2.1 ⟨[("csf", [Cell.val 1])]⟩ ["csf"] (by decide)

/-- C8 counterexample: the claim admits a set-shaped strategy and requires
non-emptiness to be validated at construction. The code rejects a Python set
of valid category names (only a list passes the `isinstance` check), and it
accepts the empty list (the loop over entries validates nothing). -/
theorem C8_counterexample_set_and_empty_strategy :
    sanitize_strategy (.pyset ["motion"]) = .error "strategy needs to be a list of strings" ∧
    sanitize_strategy (.pylist []) = .ok [] :=
  ⟨rfl, rfl⟩

/-- C8 (amended): construction fails with the invalid-strategy condition
exactly when the strategy is not a Python list (sets included) or contains a
name outside the seven-category enumeration; emptiness is not validated, and
a list of admissible names (duplicates and the empty list included) is
returned unchanged. -/
theorem C8_sanitize_strategy_error_iff :
    (∀ (inp : StrategyInput) (motion : String) (n_motion : ℕ) (censoring : String)
      (fd_thresh std_dvars_thresh : ℚ) (wm_csf global_signal compcor : String)
      (acompcor_combined : Bool) (n_compcor : NComp) (demean : Bool),
      (∃ e, mk_confounds inp motion n_motion censoring fd_thresh std_dvars_thresh wm_csf
        global_signal compcor acompcor_combined n_compcor demean = .error e) ↔
        ((∀ l, inp ≠ .pylist l) ∨
         ∃ l conf, inp = .pylist l ∧ conf ∈ l ∧ conf ∉ all_confounds)) ∧
    (∀ l : List String, (∀ conf ∈ l, conf ∈ all_confounds) →
      sanitize_strategy (.pylist l) = .ok l) := by
  constructor
  · intro inp motion n_motion censoring fd sd wm gs cc acb ncp dm
    rw [mk_confounds_eq]
    cases inp with
    | pylist l =>
      simp only [sanitize_strategy]
      constructor
      · rintro ⟨e, he⟩
        right
        cases hc : check_strategy_list l with
        | ok u =>
          cases u
          rw [hc] at he
          simp [Except.map] at he
        | error e2 =>
          have hnall : ¬(∀ conf ∈ l, conf ∈ all_confounds) := by
            intro hall
            have hok := (check_strategy_list_ok_iff l).mpr hall
            rw [hok] at hc
            exact absurd hc (by simp)
          push_neg at hnall
          rcases hnall with ⟨conf, hconf, hnc⟩
          exact ⟨l, conf, rfl, hconf, hnc⟩
      · rintro (h | ⟨l2, conf, heq, hconf, hnc⟩)
        · exact absurd rfl (h l)
        · have hl2 : l = l2 := by injection heq
          subst hl2
          cases hc : check_strategy_list l with
          | ok u =>
            exfalso
            cases u
            exact hnc ((check_strategy_list_ok_iff l).mp hc conf hconf)
          | error e2 =>
            exact ⟨e2, by rw [except_map_err, except_map_err]⟩
    | pyset l =>
      refine iff_of_true ⟨"strategy needs to be a list of strings", rfl⟩ (Or.inl ?_)
      intro l2 h
      simp at h
    | pystr s =>
      refine iff_of_true ⟨"strategy needs to be a list of strings", rfl⟩ (Or.inl ?_)
      intro l2 h
      simp at h
  · intro l hall
    simp only [sanitize_strategy]
    rw [(check_strategy_list_ok_iff l).mpr hall]
    rfl

/-- C8 witness: the singleton list strategy `["motion"]` is accepted and
returned unchanged. -/
theorem C8_sanitize_strategy_error_iff_witness :
    sanitize_strategy (.pylist ["motion"]) = .ok ["motion"] :=
  C8_sanitize_strategy_error_iff.2 ["motion"] (by decide)

/-- C9: the load operation mirrors input arity: a single table yields the
single result of loading it (not a one-element list), and a list of tables
yields the in-order list of per-table results, each computed by the same
single-table loader. -/
theorem C9_load_mirrors_arity :
    ∀ (scaleFn : Mat → Mat) (pcaFn : ℕ → Mat → Mat) (c : Confounds) (t : Table)
      (ts : List Table),
      Confounds.load scaleFn pcaFn c (.single t) =
        (load_single scaleFn pcaFn c t.1 t.2).map LoadOut.single ∧
      Confounds.load scaleFn pcaFn c (.listOf ts) =
        (load_list scaleFn pcaFn c ts).map LoadOut.listOf ∧
      load_list scaleFn pcaFn c (t :: ts) =
        (load_single scaleFn pcaFn c t.1 t.2 >>= fun r =>
          (load_list scaleFn pcaFn c ts).map (fun rs => r :: rs)) := by
  intro scaleFn pcaFn c t ts
  refine ⟨?_, ?_, ?_⟩
  · rw [load_eq_single, load_list_cons, load_list_nil]
    cases h : load_single scaleFn pcaFn c t.1 t.2 with
    | error e => rw [except_bind_err, except_bind_err, except_map_err]
    | ok r => rfl
  · rw [load_eq_listOf]
    cases h : load_list scaleFn pcaFn c ts with
    | error e => rw [except_bind_err, except_map_err]
    | ok rs => rfl
  · rw [load_list_cons]
    cases h : load_single scaleFn pcaFn c t.1 t.2 with
    | error e => rw [except_bind_err, except_bind_err]
    | ok r =>
      rw [except_bind_ok, except_bind_ok, except_bind_pure_comp]

/-- C10: `_load_single` dispatches by membership tests on the strategy list,
so a strategy with duplicate category names loads exactly as its
deduplication does; validation accepts such duplicated lists unchanged. -/
theorem C10_duplicate_strategy_equivalence :
    (∀ (scaleFn : Mat → Mat) (pcaFn : ℕ → Mat → Mat) (c : Confounds) (df : DF)
      (json : List (String × String)),
      load_single scaleFn pcaFn (withStrategy c c.strategy.dedup) df json =
        load_single scaleFn pcaFn c df json) ∧
    sanitize_strategy (.pylist ["motion", "motion", "wm_csf"]) =
      .ok ["motion", "motion", "wm_csf"] := by
  refine ⟨?_, rfl⟩
  intro scaleFn pcaFn c df json
  unfold load_single withStrategy
  simp only [List.mem_dedup]
